import Mathlib

/-!
Verification of the TF-IDF retrieval core shared by
`SimpleHuggingFaceRAG` (app.py) and `NHAIRAGSystem` (streamlit_app.py).

The embedding is parametric in the numeric carrier `K` (a linear ordered
field) together with the two transcendental functions the code uses,
`log` (Python `math.log`) and `sqrt` (Python `math.sqrt`), passed as
explicit arguments.  The claim theorems instantiate `K := ℝ`,
`log := Real.log`, `sqrt := Real.sqrt`, which is the exact-real reading of
the floating-point source.  Dictionaries are modelled as association
lists in insertion order, matching Python dict semantics.
-/

namespace NhaiRag

/-- Python regex whitespace class for ASCII text, as matched by the `\s`
inside the character class of `re.sub(r'[^a-z0-9\s]', ' ', text)`. -/
def isPySpace (c : Char) : Bool :=
  c = ' ' || c = '\t' || c = '\n' || c = '\r' || c = '\x0b' || c = '\x0c'

/-- One character step of `re.sub(r'[^a-z0-9\s]', ' ', text)`: a character
that is not a lowercase letter, a digit or whitespace becomes a space. -/
def keepChar (c : Char) : Char :=
  if ('a' ≤ c && c ≤ 'z') || ('0' ≤ c && c ≤ '9') || isPySpace c then c else ' '

/-- Helper for Python's `str.split()`: accumulate the current token in
reverse; whitespace ends a token and empty tokens are dropped. -/
def splitWsAux : List Char → List Char → List String
  | [], [] => []
  | [], acc => [String.mk acc.reverse]
  | c :: cs, acc =>
    if isPySpace c then
      (if acc.isEmpty then splitWsAux cs [] else String.mk acc.reverse :: splitWsAux cs [])
    else splitWsAux cs (c :: acc)

/-- Python's no-argument `str.split()`: split on runs of whitespace,
discarding empty pieces. -/
def pySplit (s : List Char) : List String := splitWsAux s []

/-- The stop-word set hard-coded in `preprocess_text` (the Python set
literal repeats 'her' and 'his'; a set keeps one copy of each). -/
def stop_words : List String :=
  ["the", "a", "an", "and", "or", "but", "in", "on", "at", "to", "for", "of", "with",
   "by", "is", "are", "was", "were", "be", "been", "have", "has", "had", "do", "does",
   "did", "will", "would", "could", "should", "may", "might", "must", "can", "this",
   "that", "these", "those", "i", "you", "he", "she", "it", "we", "they", "me", "him",
   "her", "us", "them", "my", "your", "his", "its", "our", "their", "mine",
   "yours", "hers", "ours", "theirs"]

/-- `preprocess_text` from app.py lines 77–84 (identical in
streamlit_app.py lines 89–96): lowercase, replace every character that is
not in `[a-z0-9\s]` by a space, split on whitespace, keep words that are
not stop words and have length greater than 2. -/
def preprocess_text (text : String) : List String :=
  let lowered := text.data.map Char.toLower
  let replaced := lowered.map keepChar
  (pySplit replaced).filter (fun w => !stop_words.contains w && decide (2 < w.length))

/-- Normalization pipeline written from the specification's words:
"lowercasing s, replacing every character that is not a lowercase letter,
digit, or whitespace with a space, splitting on whitespace, dropping
tokens of length <= 2, and dropping tokens in the fixed stop-word set".
To be compared with `preprocess_text`, which is transcribed from the
source. -/
def normalize_spec (text : String) : List String :=
  let lowered := text.data.map Char.toLower
  let replaced := lowered.map fun c =>
    if ('a' ≤ c && c ≤ 'z') || ('0' ≤ c && c ≤ '9') || isPySpace c then c else ' '
  (((pySplit replaced).filter fun w => decide (2 < w.length)).filter
    fun w => !stop_words.contains w)

/-- Deduplication keeping the first occurrence of each word, with an
accumulator of words already seen.  Models the insertion order of a
Python dict or Counter keyed by words (Python's `set(words)` iterates in
an unspecified order; any fixed enumeration of the same set gives the
same document frequencies, IDF values and vectors). -/
def dedupFirstAux : List String → List String → List String
  | [], _ => []
  | x :: xs, seen => if x ∈ seen then dedupFirstAux xs seen else x :: dedupFirstAux xs (x :: seen)

/-- Distinct words of a list in first-occurrence order. -/
def dedupFirst (l : List String) : List String := dedupFirstAux l []

/-- Document frequency of a term: the number of documents whose
preprocessed token list contains the term (`doc_frequencies` in
`build_index`, app.py lines 88–97). -/
def document_frequency (docs : List String) (t : String) : Nat :=
  (docs.filter fun d => decide (t ∈ preprocess_text d)).length

/-- The keys of the `doc_frequencies` / `idf_scores` dictionaries: every
term occurring in at least one document. -/
def index_terms (docs : List String) : List String :=
  dedupFirst (docs.flatMap preprocess_text)

variable {K : Type} [LinearOrderedField K]

/-- The IDF table built in `build_index` (app.py lines 99–101):
`idf_scores[word] = math.log(total_docs / doc_freq)`, where `total_docs`
is the number of loaded documents. -/
def idf_scores (log : K → K) (docs : List String) : List (String × K) :=
  (index_terms docs).map fun w =>
    (w, log ((docs.length : K) / (document_frequency docs w : K)))

/-- The weight a word receives in a TF-IDF vector built from the token
list `words`: `tf * idf_scores[word]` with `tf = count / len(words)`,
available only when the word is a key of `idf_scores`
(app.py lines 109–112 for documents and 124–127 for queries). -/
def tfidf_weight (idf : List (String × K)) (words : List String) (w : String) : Option K :=
  (idf.lookup w).map fun iv => ((words.count w : K) / (words.length : K)) * iv

/-- The TF-IDF vector of a token list, as a dictionary in insertion
order: one entry per distinct word of `words` that is a key of `idf`.
The same loop builds document vectors (app.py lines 103–114) and the
query vector (app.py lines 121–127). -/
def tfidf_vector (idf : List (String × K)) (words : List String) : List (String × K) :=
  (dedupFirst words).filterMap fun w => (tfidf_weight idf words w).map fun v => (w, v)

/-- The index produced by `build_index`: the IDF table and the per-document
vectors keyed by document id. -/
structure Index (K : Type) where
  idf_scores : List (String × K)
  document_vectors : List (Nat × List (String × K))

/-- `build_index` (app.py lines 86–114) as a function of the loaded
document list: IDF table plus `document_vectors[doc_id] = doc_vector`. -/
def build_index (log : K → K) (docs : List String) : Index K :=
  { idf_scores := idf_scores log docs,
    document_vectors := docs.enum.map fun p =>
      (p.1, tfidf_vector (idf_scores log docs) (preprocess_text p.2)) }

/-- Sum of squared weights of a vector, the argument of `math.sqrt` in the
magnitude computations (app.py lines 139–140). -/
def sum_squares (v : List (String × K)) : K := (v.map fun p => p.2 ^ 2).sum

/-- `vector.get(word, 0)`: the weight of a word in a vector, defaulting
to 0. -/
def get_weight (v : List (String × K)) (w : String) : K := (v.lookup w).getD 0

/-- The dot product over the union of the key sets
(app.py lines 135–136). -/
def dot_product (qv dv : List (String × K)) : K :=
  ((dedupFirst (qv.map Prod.fst ++ dv.map Prod.fst)).map fun w =>
    get_weight qv w * get_weight dv w).sum

/-- `similarity = dot_product / (query_magnitude * doc_magnitude)`
(app.py line 143). -/
def cosine_similarity (sqrt : K → K) (qv dv : List (String × K)) : K :=
  dot_product qv dv / (sqrt (sum_squares qv) * sqrt (sum_squares dv))

/-- The document loop of `search_documents` (app.py lines 129–151): skip
documents with an empty vector, require both magnitudes positive, keep a
document when its similarity exceeds the floor 0.01, recording
`(doc_id, similarity)`. -/
def score_results (sqrt : K → K) (qv : List (String × K))
    (vecs : List (Nat × List (String × K))) : List (Nat × K) :=
  vecs.filterMap fun p =>
    if p.2.isEmpty then none
    else if 0 < sqrt (sum_squares qv) ∧ 0 < sqrt (sum_squares p.2) then
      if 1 / 100 < cosine_similarity sqrt qv p.2 then
        some (p.1, cosine_similarity sqrt qv p.2)
      else none
    else none

/-- Comparison used by `results.sort(key=lambda x: x['score'], reverse=True)`:
a stable sort placing higher scores first. -/
def by_score_desc (a b : Nat × K) : Bool := decide (b.2 ≤ a.2)

/-- The surviving results after the stable descending sort by score
(app.py line 153), before truncation. -/
def ranked_results (sqrt : K → K) (qv : List (String × K))
    (vecs : List (Nat × List (String × K))) : List (Nat × K) :=
  (score_results sqrt qv vecs).mergeSort by_score_desc

/-- Python's slice `l[:k]` for an arbitrary integer `k`: the first `k`
elements when `k ≥ 0`, and all but the last `-k` elements when `k < 0`. -/
def list_slice {α : Type} (k : Int) (l : List α) : List α :=
  if 0 ≤ k then l.take k.toNat else l.take (l.length - (-k).toNat)

/-- `search_documents` (app.py lines 116–154) restricted to its data
content: the returned list of `(doc_id, score)` pairs, in order.  The
dictionaries the code returns also carry the text and metadata of the
same `doc_id`, which adds no information. -/
def search_documents (log sqrt : K → K) (idx : Index K) (query : String) (top_k : Int) :
    List (Nat × K) :=
  list_slice top_k
    (ranked_results sqrt (tfidf_vector idx.idf_scores (preprocess_text query))
      idx.document_vectors)

/-- Assignment `d[k] = v` on a Python dict modelled as an association
list: replace the value in place when the key is present, otherwise
append the binding at the end. -/
def dict_insert {α β : Type} [BEq α] : List (α × β) → α → β → List (α × β)
  | [], k, v => [(k, v)]
  | p :: rest, k, v => if p.1 == k then (k, v) :: rest else p :: dict_insert rest k v

/-- The mutable dictionaries of a `SimpleHuggingFaceRAG` instance touched
by `build_index`. -/
structure RAGState (K : Type) where
  word_index : List (String × List Nat)
  idf_scores : List (String × K)
  document_vectors : List (Nat × List (String × K))

/-- One execution of the `build_index` method over the instance state:
`word_index[word].append(doc_id)` for each unique word of each document,
then `idf_scores[word] = log(total_docs / doc_freq)` for each key of the
freshly computed `doc_frequencies`, then
`document_vectors[doc_id] = doc_vector` where each vector reads the
updated `idf_scores`. -/
def build_index_run (log : K → K) (docs : List String) (s : RAGState K) : RAGState K :=
  let wi := docs.enum.foldl
    (fun acc p => (dedupFirst (preprocess_text p.2)).foldl
      (fun acc2 w => dict_insert acc2 w ((acc2.lookup w).getD [] ++ [p.1])) acc)
    s.word_index
  let idf := (index_terms docs).foldl
    (fun acc w =>
      dict_insert acc w (log ((docs.length : K) / (document_frequency docs w : K))))
    s.idf_scores
  let vecs := docs.enum.foldl
    (fun acc p => dict_insert acc p.1 (tfidf_vector idf (preprocess_text p.2)))
    s.document_vectors
  ⟨wi, idf, vecs⟩

/-- Sequence of dict assignments `d[k] = v`, left to right. -/
def fold_writes {α β : Type} [BEq α] : List (α × β) → List (α × β) → List (α × β)
  | m, [] => m
  | m, kv :: rest => fold_writes (dict_insert m kv.1 kv.2) rest

/-- First document of the relevance-floor counterexample corpus: the
term aaa once, bbb 99 times, ccc 14 times and ddd, eee once each
(116 tokens whose squared counts sum to 10000). -/
def exDoc0 : String :=
  String.intercalate " "
    (["aaa"] ++ List.replicate 99 "bbb" ++ List.replicate 14 "ccc" ++ ["ddd", "eee"])

/-- The corpus used as a concrete counterexample for the relevance-floor
boundary: exDoc0 together with a second document holding the single
term fff. -/
def exDocs : List String := [exDoc0, "fff"]

/-! Basic lemmas about deduplication and association-list lookup. -/

theorem mem_dedupFirstAux {l seen : List String} {x : String} :
    x ∈ dedupFirstAux l seen ↔ x ∈ l ∧ x ∉ seen := by
  induction l generalizing seen with
  | nil => simp [dedupFirstAux]
  | cons y ys ih =>
    by_cases hy : y ∈ seen
    · simp only [dedupFirstAux, if_pos hy, ih, List.mem_cons]
      constructor
      · rintro ⟨h1, h2⟩; exact ⟨Or.inr h1, h2⟩
      · rintro ⟨h1 | h1, h2⟩
        · exact absurd (h1 ▸ hy) h2
        · exact ⟨h1, h2⟩
    · simp only [dedupFirstAux, if_neg hy, List.mem_cons, ih]
      by_cases hx : x = y
      · subst hx; simp [hy]
      · simp [hx]

theorem mem_dedupFirst {l : List String} {x : String} : x ∈ dedupFirst l ↔ x ∈ l := by
  simp [dedupFirst, mem_dedupFirstAux]

theorem nodup_dedupFirstAux {l seen : List String} : (dedupFirstAux l seen).Nodup := by
  induction l generalizing seen with
  | nil => simp [dedupFirstAux]
  | cons y ys ih =>
    by_cases hy : y ∈ seen
    · simpa [dedupFirstAux, hy] using ih
    · simp only [dedupFirstAux, if_neg hy, List.nodup_cons]
      refine ⟨fun hmem => ?_, ih⟩
      exact (mem_dedupFirstAux.mp hmem).2 (List.mem_cons_self y seen)

theorem nodup_dedupFirst {l : List String} : (dedupFirst l).Nodup := nodup_dedupFirstAux

theorem lookup_map_of_mem {α β : Type} [BEq α] [LawfulBEq α] {keys : List α} (f : α → β)
    {t : α} (h : t ∈ keys) : ((keys.map fun w => (w, f w)).lookup t) = some (f t) := by
  induction keys with
  | nil => cases h
  | cons k ks ih =>
    by_cases hk : t = k
    · subst hk; simp [List.lookup]
    · have htk : (t == k) = false := beq_eq_false_iff_ne.mpr hk
      have hmem : t ∈ ks := by
        rcases List.mem_cons.mp h with h' | h'
        · exact absurd h' hk
        · exact h'
      simp [List.lookup, htk, ih hmem]

theorem lookup_map_of_not_mem {α β : Type} [BEq α] [LawfulBEq α] {keys : List α} (f : α → β)
    {t : α} (h : t ∉ keys) : ((keys.map fun w => (w, f w)).lookup t) = none := by
  induction keys with
  | nil => rfl
  | cons k ks ih =>
    have htk : (t == k) = false := beq_eq_false_iff_ne.mpr
      (fun h' => h (by rw [h']; exact List.mem_cons_self k ks))
    have hks : t ∉ ks := fun hm => h (List.mem_cons_of_mem _ hm)
    simp [List.lookup, htk, ih hks]

theorem lookup_filterMap_key {α β : Type} [BEq α] [LawfulBEq α] [DecidableEq α]
    {l : List α} (hl : l.Nodup) (f : α → Option β) (t : α) :
    ((l.filterMap fun w => (f w).map fun v => (w, v)).lookup t) =
      if t ∈ l then f t else none := by
  induction l with
  | nil => simp
  | cons w ws ih =>
    rcases List.nodup_cons.mp hl with ⟨hw, hws⟩
    cases hfw : f w with
    | none =>
      rw [List.filterMap_cons]
      simp only [hfw, Option.map_none', ih hws]
      by_cases ht : t = w
      · subst ht; simp [hw, hfw]
      · simp [ht]
    | some v =>
      rw [List.filterMap_cons]
      simp only [hfw, Option.map_some']
      by_cases ht : t = w
      · subst ht; simp [List.lookup, hfw]
      · have htw : (t == w) = false := beq_eq_false_iff_ne.mpr ht
        simp only [List.lookup, htw]
        rw [ih hws]
        simp [ht]

theorem one_le_length_filter_iff {α : Type} (p : α → Bool) (l : List α) :
    1 ≤ (l.filter p).length ↔ ∃ x ∈ l, p x := by
  induction l with
  | nil => simp
  | cons a l ih =>
    by_cases h : p a
    · simp [List.filter_cons, h, Nat.succ_le_succ (Nat.zero_le _)]
    · simp [List.filter_cons, h, ih]

theorem mem_index_terms {docs : List String} {t : String} :
    t ∈ index_terms docs ↔ 1 ≤ document_frequency docs t := by
  rw [index_terms, mem_dedupFirst, document_frequency, one_le_length_filter_iff]
  simp [List.mem_flatMap]

theorem lookup_idf_scores_of_mem {log : K → K} {docs : List String} {t : String}
    (h : 1 ≤ document_frequency docs t) :
    ((idf_scores log docs).lookup t) =
      some (log ((docs.length : K) / (document_frequency docs t : K))) := by
  rw [idf_scores]
  exact lookup_map_of_mem _ (mem_index_terms.mpr h)

theorem lookup_idf_scores_of_zero {log : K → K} {docs : List String} {t : String}
    (h : document_frequency docs t = 0) :
    ((idf_scores log docs).lookup t) = none := by
  rw [idf_scores]
  refine lookup_map_of_not_mem _ (fun hmem => ?_)
  rw [mem_index_terms, h] at hmem
  omega

theorem lookup_tfidf_vector {idf : List (String × K)} {words : List String} {t : String} :
    ((tfidf_vector idf words).lookup t) =
      if t ∈ words then tfidf_weight idf words t else none := by
  rw [tfidf_vector, lookup_filterMap_key nodup_dedupFirst]
  simp [mem_dedupFirst]

theorem mem_document_vectors {log : K → K} {docs : List String} {i : Nat}
    {v : List (String × K)} :
    (i, v) ∈ (build_index log docs).document_vectors ↔
      i < docs.length ∧
        v = tfidf_vector (idf_scores log docs) (preprocess_text (docs.getD i "")) := by
  simp only [build_index, List.mem_map]
  constructor
  · rintro ⟨⟨j, d⟩, hp, heq⟩
    have hj : docs[j]? = some d := List.mk_mem_enum_iff_getElem?.mp hp
    injection heq with h1 h2
    subst h1
    subst h2
    have hlt : j < docs.length := by
      by_contra hge
      rw [List.getElem?_eq_none (by omega)] at hj
      cases hj
    refine ⟨hlt, ?_⟩
    have hd : docs.getD j "" = d := by
      rw [List.getD_eq_getElem?_getD, hj]; rfl
    rw [hd]
  · rintro ⟨hi, rfl⟩
    refine ⟨(i, docs.getD i ""), ?_, ?_⟩
    · rw [List.mk_mem_enum_iff_getElem?, List.getD_eq_getElem?_getD,
        List.getElem?_eq_getElem hi]
      rfl
    · rfl

theorem build_index_idf (log : K → K) (docs : List String) :
    (build_index log docs).idf_scores = idf_scores log docs := rfl

/-! Lemmas about the scoring loop of the search function. -/

theorem mem_score_results {sqrt : K → K} {qv : List (String × K)}
    {vecs : List (Nat × List (String × K))} {i : Nat} {s : K} :
    (i, s) ∈ score_results sqrt qv vecs ↔
      ∃ dv, (i, dv) ∈ vecs ∧ dv.isEmpty = false ∧
        0 < sqrt (sum_squares qv) ∧ 0 < sqrt (sum_squares dv) ∧
        1 / 100 < cosine_similarity sqrt qv dv ∧ s = cosine_similarity sqrt qv dv := by
  simp only [score_results, List.mem_filterMap]
  constructor
  · rintro ⟨⟨j, dv⟩, hp, hopt⟩
    by_cases h1 : dv.isEmpty
    · simp [h1] at hopt
    · by_cases h2 : 0 < sqrt (sum_squares qv) ∧ 0 < sqrt (sum_squares dv)
      · by_cases h3 : 1 / 100 < cosine_similarity sqrt qv dv
        · rw [if_neg (by simpa using h1), if_pos h2, if_pos h3] at hopt
          injection hopt with hpair
          injection hpair with hj hs
          subst hj
          subst hs
          exact ⟨dv, hp, by simpa using h1, h2.1, h2.2, h3, rfl⟩
        · rw [if_neg (by simpa using h1), if_pos h2, if_neg h3] at hopt
          cases hopt
      · rw [if_neg (by simpa using h1), if_neg h2] at hopt
        cases hopt
  · rintro ⟨dv, hmem, h1, h2, h3, h4, rfl⟩
    refine ⟨(i, dv), hmem, ?_⟩
    rw [if_neg (by simp [h1]), if_pos ⟨h2, h3⟩, if_pos h4]

theorem mem_of_mem_search {log sqrt : K → K} {idx : Index K} {q : String} {k : Int}
    {x : Nat × K} (h : x ∈ search_documents log sqrt idx q k) :
    x ∈ score_results sqrt (tfidf_vector idx.idf_scores (preprocess_text q))
      idx.document_vectors := by
  rw [search_documents, list_slice] at h
  have hx : x ∈ ranked_results sqrt (tfidf_vector idx.idf_scores (preprocess_text q))
      idx.document_vectors := by
    by_cases hk : 0 ≤ k
    · exact List.mem_of_mem_take (by simpa [hk] using h)
    · exact List.mem_of_mem_take (by simpa [hk] using h)
  rw [ranked_results] at hx
  exact List.mem_mergeSort.mp hx

theorem tfidf_vector_eq_nil {idf : List (String × K)} {words : List String}
    (h : ∀ w ∈ words, idf.lookup w = none) : tfidf_vector idf words = [] := by
  rw [tfidf_vector, List.filterMap_eq_nil_iff]
  intro w hw
  rw [tfidf_weight, h w (mem_dedupFirst.mp hw)]
  rfl

theorem sum_squares_nil : sum_squares ([] : List (String × K)) = 0 := rfl

theorem score_results_nil_qv {vecs : List (Nat × List (String × ℝ))} :
    score_results Real.sqrt [] vecs = [] := by
  rw [score_results, List.filterMap_eq_nil_iff]
  intro p _
  by_cases h1 : p.2.isEmpty
  · simp [h1]
  · have h0 : Real.sqrt (sum_squares ([] : List (String × ℝ))) = 0 := by
      rw [sum_squares_nil, Real.sqrt_zero]
    simp [h1, h0]

/-! Lemmas about order and stability of the ranked results. -/

theorem by_score_desc_trans (a b c : Nat × K) :
    by_score_desc a b → by_score_desc b c → by_score_desc a c := by
  simp only [by_score_desc, decide_eq_true_eq]
  exact fun h1 h2 => le_trans h2 h1

theorem by_score_desc_total (a b : Nat × K) :
    by_score_desc a b || by_score_desc b a := by
  simp only [by_score_desc]
  rcases le_total a.2 b.2 with h | h <;> simp [h]

theorem pairwise_fst_lt_enumFrom {α : Type} (n : Nat) (l : List α) :
    (List.enumFrom n l).Pairwise fun a b => a.1 < b.1 := by
  induction l generalizing n with
  | nil => simp
  | cons x xs ih =>
    rw [List.enumFrom_cons]
    refine List.Pairwise.cons (fun y hy => ?_) (ih (n + 1))
    have := List.le_fst_of_mem_enumFrom hy
    omega

theorem pairwise_fst_lt_enum {α : Type} (l : List α) :
    l.enum.Pairwise fun a b => a.1 < b.1 := pairwise_fst_lt_enumFrom 0 l

theorem fst_eq_of_mem_score_fn {sqrt : K → K} {qv : List (String × K)}
    {p : Nat × List (String × K)} {x : Nat × K}
    (h : x ∈ (if p.2.isEmpty then none
      else if 0 < sqrt (sum_squares qv) ∧ 0 < sqrt (sum_squares p.2) then
        if 1 / 100 < cosine_similarity sqrt qv p.2 then
          some (p.1, cosine_similarity sqrt qv p.2)
        else none
      else none)) : x.1 = p.1 := by
  by_cases h1 : p.2.isEmpty
  · rw [if_pos h1] at h
    exact absurd h (Option.not_mem_none x)
  · by_cases h2 : 0 < sqrt (sum_squares qv) ∧ 0 < sqrt (sum_squares p.2)
    · by_cases h3 : 1 / 100 < cosine_similarity sqrt qv p.2
      · rw [if_neg h1, if_pos h2, if_pos h3, Option.mem_def] at h
        injection h with hpair
        rw [← hpair]
      · rw [if_neg h1, if_pos h2, if_neg h3] at h
        exact absurd h (Option.not_mem_none x)
    · rw [if_neg h1, if_neg h2] at h
      exact absurd h (Option.not_mem_none x)

theorem pairwise_fst_lt_score_results {sqrt : K → K} {qv : List (String × K)}
    {vecs : List (Nat × List (String × K))}
    (h : vecs.Pairwise fun a b => a.1 < b.1) :
    (score_results sqrt qv vecs).Pairwise fun a b => a.1 < b.1 := by
  rw [score_results, List.pairwise_filterMap]
  refine h.imp ?_
  intro a b hab x hx y hy
  rw [fst_eq_of_mem_score_fn hx, fst_eq_of_mem_score_fn hy]
  exact hab

theorem pairwise_fst_lt_document_vectors {log : K → K} {docs : List String} :
    (build_index log docs).document_vectors.Pairwise fun a b => a.1 < b.1 := by
  rw [build_index]
  rw [List.pairwise_map]
  exact (pairwise_fst_lt_enum docs).imp fun h => h

theorem pair_sublist_of_mem {α : Type} {l : List α} {a b : α}
    (ha : a ∈ l) (hb : b ∈ l) (hne : a ≠ b) :
    List.Sublist [a, b] l ∨ List.Sublist [b, a] l := by
  induction l with
  | nil => cases ha
  | cons x xs ih =>
    rcases List.mem_cons.mp ha with rfl | ha'
    · have hb' : b ∈ xs := by
        rcases List.mem_cons.mp hb with rfl | hb'
        · exact absurd rfl hne
        · exact hb'
      exact Or.inl (List.Sublist.cons₂ a (List.singleton_sublist.mpr hb'))
    · rcases List.mem_cons.mp hb with rfl | hb'
      · exact Or.inr (List.Sublist.cons₂ b (List.singleton_sublist.mpr ha'))
      · exact (ih ha' hb').imp (List.Sublist.cons x) (List.Sublist.cons x)

theorem eq_of_pair_sublists {α : Type} {l : List α} (hl : l.Nodup) {a b : α}
    (h1 : List.Sublist [a, b] l) (h2 : List.Sublist [b, a] l) : a = b := by
  induction l with
  | nil => cases h1
  | cons x xs ih =>
    rcases List.nodup_cons.mp hl with ⟨hx, hxs⟩
    cases h1 with
    | cons _ h1' =>
      cases h2 with
      | cons _ h2' => exact ih hxs h1' h2'
      | cons₂ _ h2' =>
        exact absurd (h1'.subset (List.mem_cons_of_mem a (List.mem_cons_self b []))) hx
    | cons₂ _ h1' =>
      cases h2 with
      | cons _ h2' =>
        exact absurd (h2'.subset (List.mem_cons_of_mem b (List.mem_cons_self a []))) hx
      | cons₂ _ h2' => rfl

/-- C6: for every input string, `preprocess_text` equals the
spec-described pipeline (lowercase, replace every character that is not a
lowercase letter, digit or whitespace by a space, split on whitespace,
drop tokens of length at most 2, drop stop words), and the empty string
yields the empty token sequence.  The same single function is used at
index time and at query time. -/
theorem claim_C6_preprocess_refines_spec :
    (∀ s : String, preprocess_text s = normalize_spec s)
    ∧ preprocess_text "" = [] := by
  constructor
  · intro s
    have h : ∀ l : List String,
        ((l.filter fun w => decide (2 < w.length)).filter
            fun w => !stop_words.contains w) =
          (l.filter fun w => !stop_words.contains w && decide (2 < w.length)) := by
      intro l
      rw [List.filter_filter]
    exact (h (pySplit ((s.data.map Char.toLower).map keepChar))).symm
  · rfl

/-- C5: building the index over the empty corpus yields an empty IDF
table and no document vectors, and searching that index returns the empty
list for every query and every top_k (no division is reached because both
loops run over empty collections). -/
theorem claim_C5_empty_corpus :
    (build_index Real.log ([] : List String)).idf_scores = []
    ∧ (build_index Real.log ([] : List String)).document_vectors = []
    ∧ ∀ (q : String) (k : Int),
        search_documents Real.log Real.sqrt (build_index Real.log []) q k = [] := by
  refine ⟨rfl, rfl, fun q k => ?_⟩
  unfold search_documents ranked_results
  have hv : (build_index Real.log ([] : List String)).document_vectors = [] := rfl
  rw [hv]
  have hs : score_results Real.sqrt
      (tfidf_vector (build_index Real.log ([] : List String)).idf_scores
        (preprocess_text q)) [] = [] := rfl
  rw [hs]
  rw [List.mergeSort_nil]
  simp [list_slice]

/-- C2: for a query whose normalized token sequence is empty, or none of
whose normalized tokens occurs in the corpus, the query vector is empty
and search returns the empty list (no term-frequency division is reached
because the query-vector loop body never runs, and every document is
skipped at the magnitude guard). -/
theorem claim_C2_degenerate_query (docs : List String) (q : String) (k : Int)
    (h : preprocess_text q = [] ∨
      ∀ t ∈ preprocess_text q, document_frequency docs t = 0) :
    tfidf_vector (build_index Real.log docs).idf_scores (preprocess_text q) = []
    ∧ search_documents Real.log Real.sqrt (build_index Real.log docs) q k = [] := by
  have hqv : tfidf_vector (build_index Real.log docs).idf_scores (preprocess_text q) = [] := by
    rcases h with h | h
    · rw [h]; rfl
    · rw [build_index_idf]
      exact tfidf_vector_eq_nil fun w hw => lookup_idf_scores_of_zero (h w hw)
  refine ⟨hqv, ?_⟩
  unfold search_documents ranked_results
  rw [hqv, score_results_nil_qv]
  rw [List.mergeSort_nil]
  simp [list_slice]

/-- Witness for C2: corpus with one document, query made only of stop
words; the search result is empty. -/
theorem claim_C2_degenerate_query_witness :
    (preprocess_text "the of it" = [] ∨
      ∀ t ∈ preprocess_text "the of it", document_frequency ["hello world"] t = 0)
    ∧ search_documents Real.log Real.sqrt
        (build_index Real.log ["hello world"]) "the of it" 5 = [] :=
  ⟨by decide, (claim_C2_degenerate_query ["hello world"] "the of it" 5 (by decide)).2⟩

/-- C7: a document whose normalized token sequence is empty receives the
empty vector in the index, and never appears in any search result for any
query and any top_k. -/
theorem claim_C7_empty_document (docs : List String) (i : Nat) (hi : i < docs.length)
    (h : preprocess_text (docs.getD i "") = []) :
    (i, ([] : List (String × ℝ))) ∈ (build_index Real.log docs).document_vectors
    ∧ ∀ (q : String) (k : Int) (s : ℝ),
        (i, s) ∉ search_documents Real.log Real.sqrt (build_index Real.log docs) q k := by
  have hvec : tfidf_vector (idf_scores Real.log docs)
      (preprocess_text (docs.getD i "")) = [] := by
    rw [h]; rfl
  constructor
  · rw [mem_document_vectors]
    exact ⟨hi, hvec.symm⟩
  · intro q k s hmem
    have h1 := mem_of_mem_search hmem
    rw [mem_score_results] at h1
    obtain ⟨dv, hdv, hne, _⟩ := h1
    rw [mem_document_vectors] at hdv
    obtain ⟨_, hdveq⟩ := hdv
    rw [hvec] at hdveq
    subst hdveq
    cases hne

/-- Witness for C7: a stop-word-only document in a two-document corpus. -/
theorem claim_C7_empty_document_witness :
    0 < (["the of it", "hello world"] : List String).length
    ∧ preprocess_text ((["the of it", "hello world"] : List String).getD 0 "") = []
    ∧ (0, ([] : List (String × ℝ)))
        ∈ (build_index Real.log ["the of it", "hello world"]).document_vectors :=
  ⟨by decide, by decide,
    (claim_C7_empty_document ["the of it", "hello world"] 0 (by decide) (by decide)).1⟩

/-- C1: every term with positive document frequency has the IDF entry
log(N / df), and a term occurring in all documents has IDF entry 0 and
weight 0 in every document vector and every query vector in which it
appears. -/
theorem claim_C1_idf_formula (docs : List String) (t : String)
    (h : 1 ≤ document_frequency docs t) :
    ((build_index Real.log docs).idf_scores.lookup t) =
      some (Real.log ((docs.length : ℝ) / (document_frequency docs t : ℝ)))
    ∧ (document_frequency docs t = docs.length →
        ((build_index Real.log docs).idf_scores.lookup t) = some 0
        ∧ (∀ p ∈ (build_index Real.log docs).document_vectors,
            ∀ x : ℝ, p.2.lookup t = some x → x = 0)
        ∧ (∀ q : String, ∀ x : ℝ,
            ((tfidf_vector (build_index Real.log docs).idf_scores
              (preprocess_text q)).lookup t) = some x → x = 0)) := by
  rw [build_index_idf]
  have hl : ((idf_scores Real.log docs).lookup t) =
      some (Real.log ((docs.length : ℝ) / (document_frequency docs t : ℝ))) :=
    lookup_idf_scores_of_mem h
  refine ⟨hl, fun hN => ?_⟩
  have hN1 : 1 ≤ docs.length := hN ▸ h
  have hzero : Real.log ((docs.length : ℝ) / (document_frequency docs t : ℝ)) = 0 := by
    rw [hN, div_self (Nat.cast_ne_zero.mpr (by omega)), Real.log_one]
  have hl0 : ((idf_scores Real.log docs).lookup t) = some 0 := by rw [hl, hzero]
  refine ⟨hl0, ?_, ?_⟩
  · rintro ⟨j, dv⟩ hp x hx
    rw [mem_document_vectors] at hp
    obtain ⟨hj, hdveq⟩ := hp
    subst hdveq
    rw [lookup_tfidf_vector] at hx
    split at hx
    · rw [tfidf_weight, hl0] at hx
      simp only [Option.map_some', mul_zero, Option.some.injEq] at hx
      exact hx.symm
    · cases hx
  · intro q x hx
    rw [lookup_tfidf_vector] at hx
    split at hx
    · rw [tfidf_weight, hl0] at hx
      simp only [Option.map_some', mul_zero, Option.some.injEq] at hx
      exact hx.symm
    · cases hx

/-- Witness for C1: the term foo occurs in both documents of a
two-document corpus, so its IDF entry is 0. -/
theorem claim_C1_idf_formula_witness :
    1 ≤ document_frequency ["foo bar", "foo baz"] "foo"
    ∧ ((build_index Real.log ["foo bar", "foo baz"]).idf_scores.lookup "foo") = some 0 :=
  ⟨by decide, ((claim_C1_idf_formula ["foo bar", "foo baz"] "foo" (by decide)).2 (by decide)).1⟩

theorem getD_mem_of_lt {docs : List String} {i : Nat} (hi : i < docs.length) :
    docs.getD i "" ∈ docs := by
  rw [List.getD_eq_getElem?_getD, List.getElem?_eq_getElem hi]
  exact List.getElem_mem hi

/-- C9 (amended): a document's vector holds an entry exactly for the
terms of its own normalized token sequence (each of which is a key of the
IDF table); a term occurring in every document still appears among the
entries, but with weight 0.  The original claim, that zero-IDF terms are
absent from the vector, is refuted by the separate counterexample. -/
theorem claim_C9_amended (docs : List String) (i : Nat) (t : String)
    (hi : i < docs.length) :
    (i, tfidf_vector (idf_scores Real.log docs) (preprocess_text (docs.getD i "")))
        ∈ (build_index Real.log docs).document_vectors
    ∧ (((tfidf_vector (idf_scores Real.log docs)
          (preprocess_text (docs.getD i ""))).lookup t).isSome
        ↔ t ∈ preprocess_text (docs.getD i ""))
    ∧ (document_frequency docs t = docs.length →
        ∀ x : ℝ, (tfidf_vector (idf_scores Real.log docs)
          (preprocess_text (docs.getD i ""))).lookup t = some x → x = 0) := by
  refine ⟨mem_document_vectors.mpr ⟨hi, rfl⟩, ?_, ?_⟩
  · rw [lookup_tfidf_vector]
    by_cases hm : t ∈ preprocess_text (docs.getD i "")
    · rw [if_pos hm]
      simp only [hm, iff_true]
      have hdf : 1 ≤ document_frequency docs t := by
        rw [document_frequency, one_le_length_filter_iff]
        exact ⟨docs.getD i "", getD_mem_of_lt hi, by simpa using hm⟩
      rw [tfidf_weight, lookup_idf_scores_of_mem hdf]
      rfl
    · rw [if_neg hm]
      simp only [Option.isSome_none, Bool.false_eq_true, false_iff]
      exact hm
  · intro hN x hx
    rw [lookup_tfidf_vector] at hx
    split at hx
    · have hdf : 1 ≤ document_frequency docs t := by rw [hN]; omega
      have hzero : Real.log ((docs.length : ℝ) / (document_frequency docs t : ℝ)) = 0 := by
        rw [hN, div_self (Nat.cast_ne_zero.mpr (by omega)), Real.log_one]
      rw [tfidf_weight, lookup_idf_scores_of_mem hdf] at hx
      simp only [hzero, Option.map_some', mul_zero, Option.some.injEq] at hx
      exact hx.symm
    · cases hx

/-- Counterexample to C9 as stated: in the corpus [foo bar, foo baz] the
term foo occurs in both documents, so its IDF entry is 0, yet the vector
of document 0 still contains an entry for foo (the code guards the vector
entry by key membership in the IDF table, not by a nonzero IDF value). -/
theorem claim_C9_counterexample :
    ((build_index Real.log ["foo bar", "foo baz"]).idf_scores.lookup "foo") = some 0
    ∧ (0, tfidf_vector (idf_scores Real.log ["foo bar", "foo baz"])
          (preprocess_text "foo bar"))
        ∈ (build_index Real.log ["foo bar", "foo baz"]).document_vectors
    ∧ ((tfidf_vector (idf_scores Real.log ["foo bar", "foo baz"])
          (preprocess_text "foo bar")).lookup "foo").isSome = true := by
  have hdf : document_frequency ["foo bar", "foo baz"] "foo" = 2 := by decide
  have hl0 : ((idf_scores Real.log ["foo bar", "foo baz"]).lookup "foo") = some 0 := by
    rw [lookup_idf_scores_of_mem (by rw [hdf]; omega), hdf]
    have h1 : ((["foo bar", "foo baz"] : List String).length : ℝ) / ((2 : Nat) : ℝ) = 1 := by
      norm_num
    rw [h1, Real.log_one]
  refine ⟨hl0, ?_, ?_⟩
  · exact mem_document_vectors.mpr ⟨by decide, rfl⟩
  · rw [lookup_tfidf_vector, if_pos (by decide : "foo" ∈ preprocess_text "foo bar"),
      tfidf_weight, hl0]
    rfl

/-- C4: for every corpus, query and top_k at least 1, the search result
has at most top_k entries, is sorted by score in descending order, and
entries with equal scores are ordered by ascending document id (the
original corpus order), reflecting the stability of the sort. -/
theorem claim_C4_ranked_order (docs : List String) (q : String) (k : Int) (hk : 1 ≤ k) :
    ((search_documents Real.log Real.sqrt (build_index Real.log docs) q k).length : Int) ≤ k
    ∧ (search_documents Real.log Real.sqrt (build_index Real.log docs) q k).Pairwise
        (fun a b => b.2 ≤ a.2)
    ∧ (search_documents Real.log Real.sqrt (build_index Real.log docs) q k).Pairwise
        (fun a b => a.2 = b.2 → a.1 < b.1) := by
  have h0k : (0 : Int) ≤ k := by omega
  set qv := tfidf_vector (build_index Real.log docs).idf_scores (preprocess_text q) with hqv
  set sr := score_results Real.sqrt qv (build_index Real.log docs).document_vectors with hsr
  have hsearch : search_documents Real.log Real.sqrt (build_index Real.log docs) q k
      = (sr.mergeSort by_score_desc).take k.toNat := by
    unfold search_documents ranked_results list_slice
    rw [if_pos h0k]
  have hsorted : (sr.mergeSort by_score_desc).Pairwise fun a b : Nat × ℝ => b.2 ≤ a.2 := by
    have h := List.sorted_mergeSort by_score_desc_trans by_score_desc_total sr
    exact h.imp fun hab => by simpa [by_score_desc] using hab
  have hfst : sr.Pairwise fun a b => a.1 < b.1 :=
    pairwise_fst_lt_score_results pairwise_fst_lt_document_vectors
  have hnodup_sr : sr.Nodup := hfst.imp fun hlt heq => absurd (heq ▸ hlt) (lt_irrefl _)
  have hnodup_rr : (sr.mergeSort by_score_desc).Nodup :=
    ((List.mergeSort_perm sr by_score_desc).nodup_iff).mpr hnodup_sr
  have hties : (sr.mergeSort by_score_desc).Pairwise
      fun a b : Nat × ℝ => a.2 = b.2 → a.1 < b.1 := by
    rw [List.pairwise_iff_forall_sublist]
    intro a b hab heq
    have hmem_a : a ∈ sr := List.mem_mergeSort.mp (hab.subset (List.mem_cons_self a [b]))
    have hmem_b : b ∈ sr := List.mem_mergeSort.mp
      (hab.subset (List.mem_cons_of_mem a (List.mem_cons_self b [])))
    have hne : a ≠ b := by
      intro hcontra
      subst hcontra
      exact absurd rfl (List.pairwise_iff_forall_sublist.mp hnodup_rr hab)
    rcases pair_sublist_of_mem hmem_a hmem_b hne with hsub | hsub
    · exact List.pairwise_iff_forall_sublist.mp hfst hsub
    · have hle : by_score_desc b a := by simp [by_score_desc, heq]
      have hrr := List.pair_sublist_mergeSort by_score_desc_trans by_score_desc_total hle hsub
      exact absurd (eq_of_pair_sublists hnodup_rr hab hrr) hne
  rw [hsearch]
  refine ⟨?_, ?_, ?_⟩
  · have hlen : ((sr.mergeSort by_score_desc).take k.toNat).length ≤ k.toNat := by
      rw [List.length_take]
      exact min_le_left _ _
    calc (((sr.mergeSort by_score_desc).take k.toNat).length : Int)
        ≤ (k.toNat : Int) := by exact_mod_cast hlen
      _ = k := Int.toNat_of_nonneg h0k
  · exact List.Pairwise.sublist (List.take_sublist _ _) hsorted
  · exact List.Pairwise.sublist (List.take_sublist _ _) hties

/-- Witness for C4 at a concrete corpus, query and top_k = 2. -/
theorem claim_C4_ranked_order_witness :
    (1 : Int) ≤ 2
    ∧ ((search_documents Real.log Real.sqrt
        (build_index Real.log ["foo bar", "foo baz"]) "foo bar" 2).length : Int) ≤ 2 :=
  ⟨by decide, (claim_C4_ranked_order ["foo bar", "foo baz"] "foo bar" 2 (by decide)).1⟩

/-- C10: top_k = 0 returns the empty list, and a negative top_k = -m
returns all ranked surviving results except the last m, following
Python's slice semantics; in particular the result is nonempty whenever
more than m results survive. -/
theorem claim_C10_slice_semantics (docs : List String) (q : String) (m : Nat) (hm : 1 ≤ m) :
    search_documents Real.log Real.sqrt (build_index Real.log docs) q 0 = []
    ∧ search_documents Real.log Real.sqrt (build_index Real.log docs) q (-(m : Int)) =
        (ranked_results Real.sqrt
          (tfidf_vector (build_index Real.log docs).idf_scores (preprocess_text q))
          (build_index Real.log docs).document_vectors).take
          ((ranked_results Real.sqrt
            (tfidf_vector (build_index Real.log docs).idf_scores (preprocess_text q))
            (build_index Real.log docs).document_vectors).length - m)
    ∧ (m < (ranked_results Real.sqrt
          (tfidf_vector (build_index Real.log docs).idf_scores (preprocess_text q))
          (build_index Real.log docs).document_vectors).length →
        search_documents Real.log Real.sqrt (build_index Real.log docs) q (-(m : Int)) ≠ []) := by
  set rr := ranked_results Real.sqrt
    (tfidf_vector (build_index Real.log docs).idf_scores (preprocess_text q))
    (build_index Real.log docs).document_vectors with hrr
  have h0 : search_documents Real.log Real.sqrt (build_index Real.log docs) q 0 = [] := by
    unfold search_documents list_slice
    rw [if_pos (by omega : (0:Int) ≤ 0)]
    simp
  have hneg : search_documents Real.log Real.sqrt (build_index Real.log docs) q (-(m : Int))
      = rr.take (rr.length - m) := by
    unfold search_documents list_slice
    rw [if_neg (by omega : ¬ (0:Int) ≤ -(m : Int))]
    have ht : (-(-(m : Int))).toNat = m := by simp
    rw [ht]
  refine ⟨h0, hneg, fun hlt => ?_⟩
  rw [hneg]
  have hpos : 0 < (rr.take (rr.length - m)).length := by
    rw [List.length_take]
    omega
  exact List.ne_nil_of_length_pos hpos

/-- Witness for C10 at a concrete corpus, query and m = 1. -/
theorem claim_C10_slice_semantics_witness :
    1 ≤ 1
    ∧ search_documents Real.log Real.sqrt
        (build_index Real.log ["foo bar", "foo baz"]) "foo bar" 0 = [] :=
  ⟨by decide, (claim_C10_slice_semantics ["foo bar", "foo baz"] "foo bar" 1 (by decide)).1⟩

/-! Lemmas on Python-dict assignment and repeated index builds. -/

theorem lookup_dict_insert_self {α β : Type} [BEq α] [LawfulBEq α]
    (m : List (α × β)) (k : α) (v : β) : (dict_insert m k v).lookup k = some v := by
  induction m with
  | nil => simp [dict_insert, List.lookup]
  | cons p rest ih =>
    obtain ⟨k', v'⟩ := p
    by_cases hp : (k' == k) = true
    · simp only [dict_insert, if_pos hp, List.lookup, beq_self_eq_true]
    · simp only [dict_insert, if_neg hp]
      have hkk : (k == k') = false := by
        rw [beq_eq_false_iff_ne]
        intro he
        rw [he, beq_self_eq_true] at hp
        exact hp rfl
      simp only [List.lookup, hkk]
      exact ih

theorem lookup_dict_insert_ne {α β : Type} [BEq α] [LawfulBEq α]
    (m : List (α × β)) {k k' : α} (v : β) (h : (k' == k) = false) :
    (dict_insert m k v).lookup k' = m.lookup k' := by
  induction m with
  | nil => simp [dict_insert, List.lookup, h]
  | cons p rest ih =>
    obtain ⟨k0, v0⟩ := p
    by_cases hp : (k0 == k) = true
    · have hk0 : (k' == k0) = false := by
        rw [beq_eq_false_iff_ne]
        intro he
        rw [he] at h
        rw [eq_of_beq hp, beq_self_eq_true] at h
        cases h
      simp only [dict_insert, if_pos hp, List.lookup, h, hk0]
    · simp only [dict_insert, if_neg hp, List.lookup]
      cases hbeq : (k' == k0) with
      | true => rfl
      | false => exact ih

theorem dict_insert_lookup_id {α β : Type} [BEq α] [LawfulBEq α]
    {m : List (α × β)} {k : α} {v : β} (h : m.lookup k = some v) :
    dict_insert m k v = m := by
  induction m with
  | nil => simp [List.lookup] at h
  | cons p rest ih =>
    obtain ⟨k', v'⟩ := p
    cases hbeq : (k == k') with
    | true =>
      have hkk : k = k' := eq_of_beq hbeq
      subst hkk
      have hv : v' = v := by
        simpa only [List.lookup, beq_self_eq_true, Option.some.injEq] using h
      subst hv
      simp [dict_insert]
    | false =>
      have hrest : rest.lookup k = some v := by
        simpa only [List.lookup, hbeq] using h
      have hk2 : (k' == k) = false := by
        rw [beq_eq_false_iff_ne]
        intro he
        rw [he, beq_self_eq_true] at hbeq
        cases hbeq
      have hni : ¬ ((k' == k) = true) := by
        rw [hk2]
        exact Bool.false_ne_true
      simp only [dict_insert, if_neg hni]
      rw [ih hrest]

theorem lookup_fold_writes_of_not_mem {α β : Type} [BEq α] [LawfulBEq α]
    {writes : List (α × β)} {k : α} (h : ∀ kv ∈ writes, (k == kv.1) = false) :
    ∀ m : List (α × β), (fold_writes m writes).lookup k = m.lookup k := by
  induction writes with
  | nil => intro m; rfl
  | cons kv rest ih =>
    intro m
    rw [fold_writes]
    rw [ih fun p hp => h p (List.mem_cons_of_mem _ hp)]
    exact lookup_dict_insert_ne m _ (h kv (List.mem_cons_self kv rest))

theorem lookup_fold_writes_self {α β : Type} [BEq α] [LawfulBEq α]
    {writes : List (α × β)} (hnd : (writes.map Prod.fst).Nodup)
    {kv : α × β} (hkv : kv ∈ writes) :
    ∀ m : List (α × β), (fold_writes m writes).lookup kv.1 = some kv.2 := by
  induction writes with
  | nil => cases hkv
  | cons w rest ih =>
    intro m
    rw [fold_writes]
    rw [List.map_cons, List.nodup_cons] at hnd
    rcases List.mem_cons.mp hkv with rfl | hkv'
    · have hna : ∀ p ∈ rest, (kv.1 == p.1) = false := by
        intro p hp
        rw [beq_eq_false_iff_ne]
        intro he
        exact hnd.1 (he ▸ List.mem_map_of_mem Prod.fst hp)
      rw [lookup_fold_writes_of_not_mem hna]
      exact lookup_dict_insert_self m kv.1 kv.2
    · exact ih hnd.2 hkv' _

theorem fold_writes_id {α β : Type} [BEq α] [LawfulBEq α]
    {writes m : List (α × β)} (h : ∀ kv ∈ writes, m.lookup kv.1 = some kv.2) :
    fold_writes m writes = m := by
  induction writes with
  | nil => rfl
  | cons kv rest ih =>
    rw [fold_writes, dict_insert_lookup_id (h kv (List.mem_cons_self kv rest))]
    exact ih fun p hp => h p (List.mem_cons_of_mem _ hp)

theorem fold_writes_nodup_idem {α β : Type} [BEq α] [LawfulBEq α]
    {writes : List (α × β)} (hnd : (writes.map Prod.fst).Nodup) (m : List (α × β)) :
    fold_writes (fold_writes m writes) writes = fold_writes m writes :=
  fold_writes_id fun kv hkv => lookup_fold_writes_self hnd hkv m

theorem foldl_key_val_eq_fold_writes {α β : Type} [BEq α]
    (l : List α) (f : α → β) (m : List (α × β)) :
    l.foldl (fun acc w => dict_insert acc w (f w)) m =
      fold_writes m (l.map fun w => (w, f w)) := by
  induction l generalizing m with
  | nil => rfl
  | cons x xs ih =>
    rw [List.foldl_cons, List.map_cons, fold_writes]
    exact ih _

theorem foldl_pair_val_eq_fold_writes {α β γ : Type} [BEq α]
    (l : List (α × γ)) (g : α × γ → β) (m : List (α × β)) :
    l.foldl (fun acc p => dict_insert acc p.1 (g p)) m =
      fold_writes m (l.map fun p => (p.1, g p)) := by
  induction l generalizing m with
  | nil => rfl
  | cons x xs ih =>
    rw [List.foldl_cons, List.map_cons, fold_writes]
    exact ih _

/-- C8: running the build_index method a second time over the same
unchanged document list leaves the IDF dictionary and the document-vector
dictionary exactly as the first run produced them (each assignment of the
second run rewrites the same key with the same value). -/
theorem claim_C8_rebuild_idempotent (docs : List String) :
    (build_index_run Real.log docs
        (build_index_run Real.log docs ⟨[], [], []⟩)).idf_scores =
      (build_index_run Real.log docs ⟨[], [], []⟩).idf_scores
    ∧ (build_index_run Real.log docs
        (build_index_run Real.log docs ⟨[], [], []⟩)).document_vectors =
      (build_index_run Real.log docs ⟨[], [], []⟩).document_vectors := by
  have hkeys : ((index_terms docs).map
      (fun w => (w, Real.log ((docs.length : ℝ) / (document_frequency docs w : ℝ))))
        |>.map Prod.fst).Nodup := by
    rw [List.map_map]
    have : (Prod.fst ∘ fun w =>
        (w, Real.log ((docs.length : ℝ) / (document_frequency docs w : ℝ)))) = id := by
      funext w; rfl
    rw [this, List.map_id]
    exact nodup_dedupFirst
  simp only [build_index_run]
  rw [foldl_key_val_eq_fold_writes, foldl_key_val_eq_fold_writes]
  have hidf : fold_writes
      (fold_writes ([] : List (String × ℝ)) ((index_terms docs).map
        fun w => (w, Real.log ((docs.length : ℝ) / (document_frequency docs w : ℝ)))))
      ((index_terms docs).map
        fun w => (w, Real.log ((docs.length : ℝ) / (document_frequency docs w : ℝ)))) =
      fold_writes ([] : List (String × ℝ)) ((index_terms docs).map
        fun w => (w, Real.log ((docs.length : ℝ) / (document_frequency docs w : ℝ)))) :=
    fold_writes_nodup_idem hkeys []
  refine ⟨hidf, ?_⟩
  rw [hidf]
  rw [foldl_pair_val_eq_fold_writes, foldl_pair_val_eq_fold_writes]
  have hvkeys : ((docs.enum.map fun p =>
      (p.1, tfidf_vector (fold_writes ([] : List (String × ℝ)) ((index_terms docs).map
        fun w => (w, Real.log ((docs.length : ℝ) / (document_frequency docs w : ℝ)))))
        (preprocess_text p.2))).map Prod.fst).Nodup := by
    rw [List.map_map]
    have h1 : ((Prod.fst (β := List (String × ℝ))) ∘ fun p : Nat × String =>
        (p.1, tfidf_vector (fold_writes ([] : List (String × ℝ)) ((index_terms docs).map
          fun w => (w, Real.log ((docs.length : ℝ) / (document_frequency docs w : ℝ)))))
          (preprocess_text p.2))) = Prod.fst := by
      funext p; rfl
    rw [h1, List.enum_map_fst]
    exact List.nodup_range _
  exact fold_writes_nodup_idem hvkeys []

/-- C3 (amended): before truncation, the ranked results contain a
document exactly when the query magnitude is positive, the document's
vector magnitude is positive, and the cosine similarity is strictly
greater than the relevance floor 0.01.  (The original claim's
"not below 0.01" fails at similarity exactly 0.01; see the
counterexample.) -/
theorem claim_C3_amended (docs : List String) (q : String) (i : Nat) :
    (∃ s : ℝ, (i, s) ∈ ranked_results Real.sqrt
        (tfidf_vector (build_index Real.log docs).idf_scores (preprocess_text q))
        (build_index Real.log docs).document_vectors)
    ↔ ∃ dv, (i, dv) ∈ (build_index Real.log docs).document_vectors
        ∧ 0 < Real.sqrt (sum_squares
            (tfidf_vector (build_index Real.log docs).idf_scores (preprocess_text q)))
        ∧ 0 < Real.sqrt (sum_squares dv)
        ∧ 1 / 100 < cosine_similarity Real.sqrt
            (tfidf_vector (build_index Real.log docs).idf_scores (preprocess_text q)) dv := by
  constructor
  · rintro ⟨s, hs⟩
    rw [ranked_results, List.mem_mergeSort, mem_score_results] at hs
    obtain ⟨dv, hmem, _, h2, h3, h4, rfl⟩ := hs
    exact ⟨dv, hmem, h2, h3, h4⟩
  · rintro ⟨dv, hmem, h2, h3, h4⟩
    refine ⟨cosine_similarity Real.sqrt
      (tfidf_vector (build_index Real.log docs).idf_scores (preprocess_text q)) dv, ?_⟩
    rw [ranked_results, List.mem_mergeSort, mem_score_results]
    have hnonnil : dv.isEmpty = false := by
      rcases dv with _ | ⟨p, rest⟩
      · rw [sum_squares_nil, Real.sqrt_zero] at h3
        exact absurd h3 (lt_irrefl 0)
      · rfl
    exact ⟨dv, hmem, hnonnil, h2, h3, h4, rfl⟩

/-- Witness for the amended C9: document 0 of a two-document corpus, its
vector present in the index. -/
theorem claim_C9_amended_witness :
    0 < (["foo bar", "foo baz"] : List String).length
    ∧ (0, tfidf_vector (idf_scores Real.log ["foo bar", "foo baz"])
        (preprocess_text ((["foo bar", "foo baz"] : List String).getD 0 "")))
      ∈ (build_index Real.log ["foo bar", "foo baz"]).document_vectors :=
  ⟨by decide, (claim_C9_amended ["foo bar", "foo baz"] 0 "foo" (by decide)).1⟩

set_option maxRecDepth 100000

/-- Counterexample to C3 as stated: in the corpus exDocs the query aaa
gives document 0 the cosine similarity exactly 1/100 (the squared token
counts of the first document sum to 10000 and the shared term has count
1 out of 116 tokens), so the document meets the claim's "not below the
relevance floor" inclusion condition with positive magnitudes, yet the
code's strict comparison 0.01 < similarity excludes it from the results. -/
theorem claim_C3_counterexample :
    0 < Real.sqrt (sum_squares (tfidf_vector
        (build_index Real.log exDocs).idf_scores (preprocess_text "aaa")))
    ∧ (∃ dv, (0, dv) ∈ (build_index Real.log exDocs).document_vectors
        ∧ 0 < Real.sqrt (sum_squares dv)
        ∧ 1 / 100 ≤ cosine_similarity Real.sqrt
            (tfidf_vector (build_index Real.log exDocs).idf_scores
              (preprocess_text "aaa")) dv)
    ∧ ∀ s : ℝ, (0, s) ∉ ranked_results Real.sqrt
        (tfidf_vector (build_index Real.log exDocs).idf_scores (preprocess_text "aaa"))
        (build_index Real.log exDocs).document_vectors := by
  have hL : (0:ℝ) < Real.log 2 := Real.log_pos one_lt_two
  have hLne : Real.log 2 ≠ 0 := ne_of_gt hL
  have hlook : ∀ w : String, document_frequency exDocs w = 1 →
      (idf_scores Real.log exDocs).lookup w = some (Real.log 2) := by
    intro w hw
    rw [lookup_idf_scores_of_mem (by omega), hw, show exDocs.length = 2 from rfl]
    norm_num
  have hpre : preprocess_text "aaa" = ["aaa"] := by decide
  have hca : (preprocess_text exDoc0).count "aaa" = 1 := by decide
  have hcb : (preprocess_text exDoc0).count "bbb" = 99 := by decide
  have hcc : (preprocess_text exDoc0).count "ccc" = 14 := by decide
  have hcd : (preprocess_text exDoc0).count "ddd" = 1 := by decide
  have hce : (preprocess_text exDoc0).count "eee" = 1 := by decide
  have hlen : (preprocess_text exDoc0).length = 116 := by decide
  have hded : dedupFirst (preprocess_text exDoc0) = ["aaa", "bbb", "ccc", "ddd", "eee"] := by
    decide
  have hwq : tfidf_weight (idf_scores Real.log exDocs) ["aaa"] "aaa" = some (Real.log 2) := by
    rw [tfidf_weight, hlook "aaa" (by decide), Option.map_some',
      show (["aaa"] : List String).count "aaa" = 1 from by decide,
      show (["aaa"] : List String).length = 1 from rfl]
    norm_num
  have hqv : tfidf_vector (idf_scores Real.log exDocs) (preprocess_text "aaa")
      = [("aaa", Real.log 2)] := by
    rw [hpre, tfidf_vector, show dedupFirst ["aaa"] = ["aaa"] from by decide]
    simp only [List.filterMap_cons, List.filterMap_nil, hwq, Option.map_some']
  have hwa : tfidf_weight (idf_scores Real.log exDocs) (preprocess_text exDoc0) "aaa"
      = some ((1 / 116 : ℝ) * Real.log 2) := by
    rw [tfidf_weight, hlook "aaa" (by decide), Option.map_some', hca, hlen]
    norm_num
  have hwb : tfidf_weight (idf_scores Real.log exDocs) (preprocess_text exDoc0) "bbb"
      = some ((99 / 116 : ℝ) * Real.log 2) := by
    rw [tfidf_weight, hlook "bbb" (by decide), Option.map_some', hcb, hlen]
    norm_num
  have hwc : tfidf_weight (idf_scores Real.log exDocs) (preprocess_text exDoc0) "ccc"
      = some ((14 / 116 : ℝ) * Real.log 2) := by
    rw [tfidf_weight, hlook "ccc" (by decide), Option.map_some', hcc, hlen]
    norm_num
  have hwd : tfidf_weight (idf_scores Real.log exDocs) (preprocess_text exDoc0) "ddd"
      = some ((1 / 116 : ℝ) * Real.log 2) := by
    rw [tfidf_weight, hlook "ddd" (by decide), Option.map_some', hcd, hlen]
    norm_num
  have hwe : tfidf_weight (idf_scores Real.log exDocs) (preprocess_text exDoc0) "eee"
      = some ((1 / 116 : ℝ) * Real.log 2) := by
    rw [tfidf_weight, hlook "eee" (by decide), Option.map_some', hce, hlen]
    norm_num
  have hdv : tfidf_vector (idf_scores Real.log exDocs) (preprocess_text exDoc0)
      = [("aaa", (1 / 116 : ℝ) * Real.log 2), ("bbb", (99 / 116 : ℝ) * Real.log 2),
         ("ccc", (14 / 116 : ℝ) * Real.log 2), ("ddd", (1 / 116 : ℝ) * Real.log 2),
         ("eee", (1 / 116 : ℝ) * Real.log 2)] := by
    rw [tfidf_vector, hded]
    simp only [List.filterMap_cons, List.filterMap_nil, hwa, hwb, hwc, hwd, hwe,
      Option.map_some']
  have hqm : Real.sqrt (sum_squares [("aaa", Real.log 2)]) = Real.log 2 := by
    have hssq : sum_squares [("aaa", Real.log 2)] = Real.log 2 ^ 2 := by
      simp [sum_squares]
    rw [hssq]
    exact Real.sqrt_sq hL.le
  have hdm : Real.sqrt (sum_squares
      [("aaa", (1 / 116 : ℝ) * Real.log 2), ("bbb", (99 / 116 : ℝ) * Real.log 2),
       ("ccc", (14 / 116 : ℝ) * Real.log 2), ("ddd", (1 / 116 : ℝ) * Real.log 2),
       ("eee", (1 / 116 : ℝ) * Real.log 2)]) = (100 / 116 : ℝ) * Real.log 2 := by
    have hssd : sum_squares
        [("aaa", (1 / 116 : ℝ) * Real.log 2), ("bbb", (99 / 116 : ℝ) * Real.log 2),
         ("ccc", (14 / 116 : ℝ) * Real.log 2), ("ddd", (1 / 116 : ℝ) * Real.log 2),
         ("eee", (1 / 116 : ℝ) * Real.log 2)] = ((100 / 116 : ℝ) * Real.log 2) ^ 2 := by
      simp only [sum_squares, List.map_cons, List.map_nil, List.sum_cons, List.sum_nil]
      ring
    rw [hssd]
    exact Real.sqrt_sq (mul_nonneg (by norm_num) hL.le)
  have hunion : dedupFirst ((([("aaa", Real.log 2)]).map Prod.fst)
      ++ (([("aaa", (1 / 116 : ℝ) * Real.log 2), ("bbb", (99 / 116 : ℝ) * Real.log 2),
           ("ccc", (14 / 116 : ℝ) * Real.log 2), ("ddd", (1 / 116 : ℝ) * Real.log 2),
           ("eee", (1 / 116 : ℝ) * Real.log 2)]).map Prod.fst))
      = ["aaa", "bbb", "ccc", "ddd", "eee"] := by decide
  have hdot : dot_product [("aaa", Real.log 2)]
      [("aaa", (1 / 116 : ℝ) * Real.log 2), ("bbb", (99 / 116 : ℝ) * Real.log 2),
       ("ccc", (14 / 116 : ℝ) * Real.log 2), ("ddd", (1 / 116 : ℝ) * Real.log 2),
       ("eee", (1 / 116 : ℝ) * Real.log 2)] = (1 / 116 : ℝ) * Real.log 2 ^ 2 := by
    rw [dot_product, hunion]
    simp [get_weight, List.lookup]
    ring
  have hsim : cosine_similarity Real.sqrt [("aaa", Real.log 2)]
      [("aaa", (1 / 116 : ℝ) * Real.log 2), ("bbb", (99 / 116 : ℝ) * Real.log 2),
       ("ccc", (14 / 116 : ℝ) * Real.log 2), ("ddd", (1 / 116 : ℝ) * Real.log 2),
       ("eee", (1 / 116 : ℝ) * Real.log 2)] = 1 / 100 := by
    rw [cosine_similarity, hdot, hqm, hdm]
    field_simp
    ring
  have hvec0 : (0, tfidf_vector (idf_scores Real.log exDocs) (preprocess_text exDoc0))
      ∈ (build_index Real.log exDocs).document_vectors :=
    mem_document_vectors.mpr ⟨by decide, by rw [show exDocs.getD 0 "" = exDoc0 from rfl]⟩
  rw [build_index_idf]
  refine ⟨?_, ?_, ?_⟩
  · rw [hqv, hqm]
    exact hL
  · refine ⟨tfidf_vector (idf_scores Real.log exDocs) (preprocess_text exDoc0),
      hvec0, ?_, ?_⟩
    · rw [hdv, hdm]
      exact mul_pos (by norm_num) hL
    · rw [hqv, hdv, hsim]
  · intro s hmem
    rw [ranked_results, List.mem_mergeSort, mem_score_results] at hmem
    obtain ⟨dv, hdvmem, -, -, -, hsimgt, -⟩ := hmem
    rw [mem_document_vectors] at hdvmem
    obtain ⟨-, hdveq⟩ := hdvmem
    rw [show exDocs.getD 0 "" = exDoc0 from rfl] at hdveq
    subst hdveq
    rw [hqv, hdv, hsim] at hsimgt
    exact absurd hsimgt (lt_irrefl _)

end NhaiRag
